import Mathlib

/-!
# Verification of the smart-commit synchronization & extraction engine

Shallow embedding of the core of `apps/tracker` (models.py, tasks.py):
the commit-message parser, the time-log reconciler
(`GithubCommit.refresh_time_log_from_message`,
`GithubCommit.update_message_if_changed`), the branch reconciler
(`fetch_branches`), the commit reconciler (`sync_branch_commits`) and the
orchestrator (`sync_all_repos`).

Conventions of the embedding:
* Python strings are Lean `String` / `List Char`; the regex character
  classes `\d`, `\s`, `[A-Za-z0-9._-]` are modelled over ASCII, which is
  the range every claim exercises.
* Nullable columns and absent dict keys are `Option`; Python truthiness
  of a string (`if not sha`) is "present and nonempty".
* Timestamps (`timezone.now()`) are abstract instants passed in as `Nat`
  parameters.
* Database rows live in explicit lists; a Django `save` / insert /
  delete is counted in an explicit `writes` counter where a claim talks
  about writes.
-/

namespace SmartCommit

/-! ## Character classes of the smart-commit regex

The regex in `GithubCommit.refresh_time_log_from_message` is

  `(#(?P<task_id>[A-Za-z0-9._-]+)\s+(?P<time_task>\d+h(?:\d+m)?|\d+m)`
  `|~(?P<time_only>\d+h(?:\d+m)?|\d+m))(?=\s|$|[\.,;:!\?\)\]])`

with `re.IGNORECASE`, searched left to right (`pattern.search`). -/

/-- ASCII decimal digit, the `\d` class. -/
def isDigitA (c : Char) : Bool := '0' ≤ c && c ≤ '9'

/-- ASCII whitespace, the `\s` class. -/
def isWsA (c : Char) : Bool :=
  c = ' ' || c = '\t' || c = '\n' || c = '\x0d' || c = '\x0b' || c = '\x0c'

/-- The task-id class `[A-Za-z0-9._-]`. -/
def isTaskIdChar (c : Char) : Bool :=
  ('A' ≤ c && c ≤ 'Z') || ('a' ≤ c && c ≤ 'z') || isDigitA c ||
  c = '.' || c = '_' || c = '-'

/-- The hour unit letter, case-insensitive (`re.IGNORECASE`). -/
def isHourU (c : Char) : Bool := c = 'h' || c = 'H'

/-- The minute unit letter, case-insensitive. -/
def isMinU (c : Char) : Bool := c = 'm' || c = 'M'

/-- The trailing punctuation class `[\.,;:!\?\)\]]` of the lookahead. -/
def isPunctA (c : Char) : Bool :=
  c = '.' || c = ',' || c = ';' || c = ':' || c = '!' || c = '?' ||
  c = ')' || c = ']'

/-- The lookahead `(?=\s|$|[\.,;:!\?\)\]])`: the rest of the input is
empty or starts with whitespace or allowed punctuation. -/
def lookOK : List Char → Bool
  | [] => true
  | c :: _ => isWsA c || isPunctA c

/-- Match the duration alternation `\d+h(?:\d+m)?|\d+m` at the head of
the input, subject to the trailing lookahead.  Alternatives are tried in
regex order: `h`+`m`, then `h` alone, then `m` alone; `\d+` runs are
maximal (no shorter run can succeed because the classes are disjoint).
Returns the matched token. -/
def matchDuration (l : List Char) : Option (List Char) :=
  let d1 := l.takeWhile isDigitA
  let r1 := l.dropWhile isDigitA
  if d1.isEmpty then none else
  match r1 with
  | [] => none
  | c :: r2 =>
    if isHourU c then
      let d2 := r2.takeWhile isDigitA
      let r3 := r2.dropWhile isDigitA
      let hm : Option (List Char) :=
        if d2.isEmpty then none else
        match r3 with
        | c2 :: r4 => if isMinU c2 && lookOK r4 then some (d1 ++ c :: (d2 ++ [c2])) else none
        | [] => none
      match hm with
      | some t => some t
      | none => if lookOK r2 then some (d1 ++ [c]) else none
    else if isMinU c then
      if lookOK r2 then some (d1 ++ [c]) else none
    else none

/-- A matched smart-commit token: the optional `task_id` group and the
matched time token (`time_task` or `time_only`). -/
structure Draft where
  taskId : Option String
  timeToken : String
  deriving Repr, DecidableEq

/-- `pattern.search`: scan the message left to right, at each position
trying the `#task \s+ time` alternative (only possible at `#`) and the
`~time` alternative (only possible at `~`); the first position where one
matches wins. -/
def findToken : List Char → Option Draft
  | [] => none
  | '#' :: rs =>
    let tid := rs.takeWhile isTaskIdChar
    let r1 := rs.dropWhile isTaskIdChar
    let ws := r1.takeWhile isWsA
    let r2 := r1.dropWhile isWsA
    (if tid.isEmpty || ws.isEmpty then findToken rs
     else
       match matchDuration r2 with
       | some tok => some ⟨some ⟨tid⟩, ⟨tok⟩⟩
       | none => findToken rs)
  | '~' :: rs =>
    (match matchDuration rs with
     | some tok => some ⟨none, ⟨tok⟩⟩
     | none => findToken rs)
  | _ :: rs => findToken rs

/-- The parser on strings. -/
def parseSmart (message : String) : Option Draft :=
  findToken message.data

/-- Numeric value of a digit run (Python `int`). -/
def natOfDigits (l : List Char) : Nat :=
  l.foldl (fun n c => n * 10 + (c.toNat - 48)) 0

/-- Scan for `(\d+)u` (the code runs `re.search(r"(?i)(\d+)h")` and
likewise for `m` on the time token): the leftmost maximal digit run
immediately followed by the unit letter wins; a start inside a digit run
cannot match, which the `prev` flag (previous char was a digit) encodes. -/
def firstNumBeforeAux (isU : Char → Bool) (prev : Bool) : List Char → Option Nat
  | [] => none
  | c :: rs =>
    if isDigitA c && !prev then
      match rs.dropWhile isDigitA with
      | c2 :: _ =>
        if isU c2 then some (natOfDigits (c :: rs.takeWhile isDigitA))
        else firstNumBeforeAux isU true rs
      | [] => none
    else firstNumBeforeAux isU (isDigitA c) rs

/-- First occurrence of `(\d+)u` inside the time token. -/
def firstNumBefore (isU : Char → Bool) (l : List Char) : Option Nat :=
  firstNumBeforeAux isU false l

/-- `total_minutes` computed from the matched time token:
`hours * 60 + minutes`, each component 0 when its group is absent. -/
def minutesOf (tok : String) : Nat :=
  (firstNumBefore isHourU tok.data).getD 0 * 60 +
    (firstNumBefore isMinU tok.data).getD 0

/-- The parser abstraction of spec §4.1: `None`, or minutes and optional
task token; a total duration of `0` (`total_minutes <= 0` in the code)
is treated as no token found. -/
def parsedDraft (message : String) : Option (Nat × Option String) :=
  match parseSmart message with
  | none => none
  | some d =>
    let m := minutesOf d.timeToken
    if m = 0 then none else some (m, d.taskId)

/-! ## Data model

`ClickupTask` keeps the two columns the resolver reads; a task is
identified by its unique `clickup_id`, and foreign keys to tasks are
stored as that id. -/

structure CuTask where
  clickup_id : String
  user_friendly_id : Option String
  deriving Repr, DecidableEq

/-- `GithubCommitTimeLog` row: the columns the reconciler writes plus
the `updated_at` bookkeeping column, which is `auto_now=True` and
listed in the save's `update_fields`, so every save bumps it to the
save instant (only `created_at` is omitted). -/
structure TimeLog where
  total_minutes : Nat
  parsed_from_message : String
  task_id : Option String
  clickup_task : Option String
  is_synced_with_clickup : Bool
  synced_at : Option Nat
  updated_at : Nat
  deriving Repr, DecidableEq

/-- Task resolution in `refresh_time_log_from_message`:
`ClickupTask.objects.filter(Q(user_friendly_id=task_id) |
Q(clickup_id=task_id)).first()` — first task in index order whose
friendly id or external id equals the token. -/
def resolveTask (idx : List CuTask) (tid : String) : Option CuTask :=
  idx.find? (fun t => t.user_friendly_id == some tid || t.clickup_id == tid)

/-- `GithubCommit.refresh_time_log_from_message` as a transition on the
commit's optional time-log row.  `idx` is the task index,
`branchTask` the `clickup_task` currently linked to the commit's
branch, `now` the instant of the call.  Returns the row after the call
(`none` = deleted / absent) paired with whether a row write happened:
`log.delete()` on the no-draft paths, the unconditional
`log.save(update_fields=[..., "updated_at"])` on the update path —
executed whether or not any value changed, and bumping the `auto_now`
`updated_at` column to `now` — or the row creation.  Only the
no-draft-and-no-log paths write nothing. -/
def refreshTimeLog (idx : List CuTask) (branchTask : Option String)
    (now : Nat) (message : String) (log : Option TimeLog) :
    Option TimeLog × Bool :=
  match parseSmart message with
  | none =>
    match log with
    | some _ => (none, true)
    | none => (none, false)
  | some d =>
    let totalMinutes := minutesOf d.timeToken
    if totalMinutes = 0 then
      match log with
      | some _ => (none, true)
      | none => (none, false)
    else
      let parsedRepr :=
        match d.taskId with
        | some tid => "#" ++ tid ++ " " ++ d.timeToken
        | none => "~" ++ d.timeToken
      let resolved :=
        match d.taskId with
        | some tid =>
          match resolveTask idx tid with
          | some t => some t.clickup_id
          | none => branchTask
        | none => branchTask
      match log with
      | some l =>
        (some { l with
                 total_minutes := totalMinutes
                 parsed_from_message := parsedRepr
                 task_id := d.taskId
                 clickup_task := resolved
                 is_synced_with_clickup := false
                 updated_at := now }, true)
      | none =>
        (some { total_minutes := totalMinutes
                parsed_from_message := parsedRepr
                task_id := d.taskId
                clickup_task := resolved
                is_synced_with_clickup := false
                synced_at := none
                updated_at := now }, true)

/-- The reconciler's result signal.  `refresh_time_log_from_message`
itself returns nothing; its callers (`GithubCommitAdmin.
refresh_time_logs` and the `refresh_time_logs` management command)
classify the transition by comparing the row before and after. -/
inductive Signal where
  | created
  | updated
  | deleted
  | unchanged
  deriving Repr, DecidableEq

/-- The callers' classification: created when a row appears, deleted
when it disappears, updated when it persists with different minutes,
otherwise unchanged (the callers tally nothing in the absent → absent
case, which the contract of spec §4.3 calls `unchanged`). -/
def classifySignal (prev next : Option TimeLog) : Signal :=
  match prev, next with
  | none, some _ => Signal.created
  | some _, none => Signal.deleted
  | some p, some n =>
    if n.total_minutes ≠ p.total_minutes then Signal.updated else Signal.unchanged
  | none, none => Signal.unchanged

/-- `GithubCommit` row: the columns `sync_branch_commits` touches plus
its one-to-one time log. -/
structure Commit where
  sha : String
  message : String
  author_name : String
  author_email : String
  date : Nat
  log : Option TimeLog
  deriving Repr, DecidableEq

/-- `GithubCommit.update_message_if_changed`: when the new message is
different, store it and re-run the time-log reconciler; otherwise do
nothing (the `new_message is not None` guard is vacuous for a `String`
input). -/
def updateMessageIfChanged (idx : List CuTask) (branchTask : Option String)
    (now : Nat) (c : Commit) (newMessage : String) : Commit :=
  if newMessage ≠ c.message then
    { c with
        message := newMessage
        log := (refreshTimeLog idx branchTask now newMessage c.log).1 }
  else c

/-! ## Branch reconciler (`fetch_branches`, tasks.py lines 50-111) -/

/-- `GithubBranch` row (the columns `fetch_branches` touches). -/
structure BranchRec where
  name : String
  is_active : Bool
  head_sha : Option String
  protected_flag : Bool
  clickup_task : Option String
  deriving Repr, DecidableEq

/-- One entry of `gh.list_branches`: the payload fields the loop reads,
plus the outcome of the `branch_has_author_commit` filter for this
branch (`false` also when the check raised — `except: continue`). -/
structure RemoteBranch where
  name : Option String
  commit_sha : Option String
  protected_flag : Bool
  filterOk : Bool
  deriving Repr, DecidableEq

/-- Maximal runs of `[A-Za-z0-9._-]` — `re.findall(r"[A-Za-z0-9._-]+",
branch.name)`.  `cur` accumulates the current run in reverse. -/
def tokenizeAux (cur : List Char) : List Char → List String
  | [] => if cur.isEmpty then [] else [⟨cur.reverse⟩]
  | c :: rs =>
    if isTaskIdChar c then tokenizeAux (c :: cur) rs
    else if cur.isEmpty then tokenizeAux [] rs
    else ⟨cur.reverse⟩ :: tokenizeAux [] rs

/-- Tokens of a branch name. -/
def tokenizeName (s : String) : List String := tokenizeAux [] s.data

/-- `map_branch_clickup_task_by_name_tokens`: first task in index order
whose friendly id or external id occurs among the name's tokens; the
link is saved only when it differs.  Returns the (possibly) updated row
and whether a save happened. -/
def mapBranchTask (idx : List CuTask) (b : BranchRec) : BranchRec × Bool :=
  let tokens := tokenizeName b.name
  if tokens.isEmpty then (b, false)
  else
    match idx.find? (fun t =>
        (match t.user_friendly_id with
         | some f => tokens.contains f
         | none => false) || tokens.contains t.clickup_id) with
    | some t =>
      if b.clickup_task ≠ some t.clickup_id then
        ({ b with clickup_task := some t.clickup_id }, true)
      else (b, false)
    | none => (b, false)

/-- Whether a remote entry is processed, and under which name:
`if not name: continue`, then the author filter when it is enabled
(`only_user_branches and cfg and cfg.username`). -/
def includedName (filterEnabled : Bool) (e : RemoteBranch) : Option String :=
  match e.name with
  | none => none
  | some n =>
    if n = "" then none
    else if filterEnabled && !e.filterOk then none
    else some n

/-- Loop state of `fetch_branches`.  `writes` counts row writes: the
save `update_or_create` performs on either path, the task-link save,
each soft-delete save and the final repository save. -/
structure FBState where
  branches : List BranchRec
  created : Nat
  updated : Nat
  writes : Nat
  deriving Repr, DecidableEq

/-- One iteration of the `fetch_branches` loop: upsert by
`(repo, name)` with `is_active=True`, head sha and protected flag, then
attempt the task mapping. -/
def processEntry (idx : List CuTask) (filterEnabled : Bool)
    (st : FBState) (e : RemoteBranch) : FBState :=
  match includedName filterEnabled e with
  | none => st
  | some n =>
    match st.branches.find? (·.name == n) with
    | some b =>
      let b1 := { b with is_active := true, head_sha := e.commit_sha,
                         protected_flag := e.protected_flag }
      let m := mapBranchTask idx b1
      { st with
          branches := st.branches.map (fun x => if x.name = n then m.1 else x)
          updated := st.updated + 1
          writes := st.writes + 1 + (if m.2 then 1 else 0) }
    | none =>
      let b1 : BranchRec :=
        { name := n, is_active := true, head_sha := e.commit_sha,
          protected_flag := e.protected_flag, clickup_task := none }
      let m := mapBranchTask idx b1
      { st with
          branches := st.branches ++ [m.1]
          created := st.created + 1
          writes := st.writes + 1 + (if m.2 then 1 else 0) }

/-- The "seen" set accumulated by the loop: the included names, in
order. -/
def seenNames (filterEnabled : Bool) (entries : List RemoteBranch) : List String :=
  entries.filterMap (includedName filterEnabled)

/-- Result of `fetch_branches`: the branch table, the repository's
`last_branches_synced_at` cursor and the summary counters. -/
structure FBResult where
  branches : List BranchRec
  last_branches_synced_at : Option Nat
  created : Nat
  updated : Nat
  inactivated : Nat
  writes : Nat
  deriving Repr, DecidableEq

/-- `fetch_branches`: process every remote entry, soft-inactivate every
existing branch that is still active but was not seen, then stamp the
repository cursor with the completion time `now`. -/
def fetchBranches (idx : List CuTask) (filterEnabled : Bool)
    (entries : List RemoteBranch) (branches0 : List BranchRec) (now : Nat) :
    FBResult :=
  let st1 := entries.foldl (processEntry idx filterEnabled)
    { branches := branches0, created := 0, updated := 0, writes := 0 }
  let seen := seenNames filterEnabled entries
  let flips := st1.branches.countP (fun b => !seen.contains b.name && b.is_active)
  let branches2 := st1.branches.map (fun b =>
    if !seen.contains b.name && b.is_active then { b with is_active := false } else b)
  { branches := branches2
    last_branches_synced_at := some now
    created := st1.created
    updated := st1.updated
    inactivated := flips
    writes := st1.writes + flips + 1 }

/-! ## Commit reconciler (`sync_branch_commits`, tasks.py lines 127-202) -/

/-- `GithubConfiguration` columns the commit loop reads (an absent
`preferred_author_emails` JSON value is the empty list, which is falsy
exactly like Python `None`). -/
structure GhConfig where
  username : Option String
  preferred_author_emails : List String
  deriving Repr, DecidableEq

/-- One entry of `gh.list_commits`: `sha`, the nested
`commit.message` / `commit.author` fields, and the top-level
`author.login` handle (absent when GitHub has no account match). -/
structure RemoteCommit where
  sha : Option String
  message : Option String
  author_name : Option String
  author_email : Option String
  login : Option String
  date : Option Nat
  deriving Repr, DecidableEq

/-- Python string truthiness of an optional value: present and
nonempty. -/
def truthy (o : Option String) : Bool := o.getD "" ≠ ""

/-- The author-email allow-list filter (tasks.py lines 157-162): skip
when the list is configured, the payload email is truthy and not in the
list, and the author handle differs from the configured username
(`(gh_author or {}).get("login") != (cfg.username or "")`). -/
def emailFilterSkips (cfg : GhConfig) (item : RemoteCommit) : Bool :=
  !cfg.preferred_author_emails.isEmpty &&
  truthy item.author_email &&
  !cfg.preferred_author_emails.contains (item.author_email.getD "") &&
  !(item.login == some (cfg.username.getD ""))

/-- Loop state of `sync_branch_commits`.  `updated` mirrors the
source's counter, which is initialised and returned. -/
structure CSState where
  commits : List Commit
  created : Nat
  updated : Nat
  processed : Nat
  deriving Repr, DecidableEq

/-- One iteration of the `sync_branch_commits` loop: skip falsy shas
and allow-list-filtered commits, `get_or_create` by `(branch, sha)`;
on creation parse the message once, otherwise run
`update_message_if_changed`. -/
def processItem (cfg : GhConfig) (idx : List CuTask) (branchTask : Option String)
    (now : Nat) (st : CSState) (item : RemoteCommit) : CSState :=
  if !truthy item.sha then st
  else if emailFilterSkips cfg item then st
  else
    let shaV := item.sha.getD ""
    let message := item.message.getD ""
    match st.commits.find? (·.sha == shaV) with
    | some c =>
      let c' := updateMessageIfChanged idx branchTask now c message
      { st with
          commits := st.commits.map (fun x => if x.sha = shaV then c' else x)
          processed := st.processed + 1 }
    | none =>
      let authorName :=
        if truthy item.author_name then item.author_name.getD ""
        else item.login.getD ""
      let c : Commit :=
        { sha := shaV, message := message, author_name := authorName,
          author_email := item.author_email.getD "",
          date := item.date.getD now, log := none }
      let c' := { c with log := (refreshTimeLog idx branchTask now message c.log).1 }
      { st with
          commits := st.commits ++ [c']
          created := st.created + 1
          processed := st.processed + 1 }

/-- `GithubBranch` state the commit reconciler reads and writes: the
commit-sync cursor, the task link the time-log fallback reads, and the
branch's commits. -/
structure BranchState where
  last_commits_synced_at : Option Nat
  clickup_task : Option String
  commits : List Commit
  deriving Repr, DecidableEq

/-- Result of `sync_branch_commits`, including the `since` bound that
was passed to `gh.list_commits`. -/
structure SBCResult where
  sinceUsed : Option Nat
  branch : BranchState
  created : Nat
  updated : Nat
  processed : Nat
  deriving Repr, DecidableEq

/-- `sync_branch_commits`: compute the `since` bound from the branch
cursor (lines 141-143), fetch the remote page at that bound, fold the
loop, then stamp the cursor with the completion time `now` (lines
194-195) whether or not any commits were found.  The remote source is
a function of the `since` bound. -/
def syncBranchCommits (cfg : GhConfig) (idx : List CuTask) (sinceLast : Bool)
    (br : BranchState) (src : Option Nat → List RemoteCommit) (now : Nat) :
    SBCResult :=
  let sinceIso := if sinceLast then br.last_commits_synced_at else none
  let items := src sinceIso
  let st1 := items.foldl (processItem cfg idx br.clickup_task now)
    { commits := br.commits, created := 0, updated := 0, processed := 0 }
  { sinceUsed := sinceIso
    branch := { br with commits := st1.commits, last_commits_synced_at := some now }
    created := st1.created
    updated := st1.updated
    processed := st1.processed }

/-! ## Orchestrator (`sync_all_repos`, tasks.py lines 229-234) -/

/-- `GithubRepo` as the orchestrator sees it. -/
structure RepoRec where
  rid : Nat
  is_active : Bool
  deriving Repr, DecidableEq

/-- The `for repo in ...: results.append(sync_repo(repo))` loop under
exception semantics: an exception raised by `sync_repo` propagates and
ends the loop. -/
def syncAllGo {E S : Type} (f : RepoRec → Except E S) :
    List RepoRec → Except E (List S)
  | [] => Except.ok []
  | r :: rs =>
    match f r with
    | Except.error e => Except.error e
    | Except.ok s =>
      match syncAllGo f rs with
      | Except.error e => Except.error e
      | Except.ok l => Except.ok (s :: l)

/-- `sync_all_repos`: run `sync_repo` over every active repository. -/
def syncAllRepos {E S : Type} (f : RepoRec → Except E S)
    (repos : List RepoRec) : Except E (List S) :=
  syncAllGo f (repos.filter (·.is_active))

/-- The repositories on which `sync_repo` is actually invoked before
the loop ends (normally or by propagation). -/
def attemptedGo {E S : Type} (f : RepoRec → Except E S) :
    List RepoRec → List RepoRec
  | [] => []
  | r :: rs =>
    r :: (match f r with
          | Except.error _ => []
          | Except.ok _ => attemptedGo f rs)

/-- The repositories attempted by `sync_all_repos`. -/
def attemptedRepos {E S : Type} (f : RepoRec → Except E S)
    (repos : List RepoRec) : List RepoRec :=
  attemptedGo f (repos.filter (·.is_active))

/-- Success test on an `Except` result. -/
def isOkE {E S : Type} : Except E S → Bool
  | Except.ok _ => true
  | Except.error _ => false

/-- The effect of one `fetch_branches` loop iteration on the branch row
it upserts: set `is_active`, head sha and protected flag, then run the
task mapping (`processEntry` applies exactly this to the found or fresh
row). -/
def upsertRec (idx : List CuTask) (e : RemoteBranch) (b : BranchRec) : BranchRec :=
  (mapBranchTask idx { b with is_active := true, head_sha := e.commit_sha,
                              protected_flag := e.protected_flag }).1

/-- Proof-side characterisation of the task link `mapBranchTask`
leaves on a branch named `nm` whose link was `old` (the branch rows of
the loop are connected to it by `mapBranchTask_fst_clickup`). -/
def resolvedLink (idx : List CuTask) (nm : String) (old : Option String) :
    Option String :=
  if (tokenizeName nm).isEmpty then old
  else
    match idx.find? (fun t =>
        (match t.user_friendly_id with
         | some f => (tokenizeName nm).contains f
         | none => false) || (tokenizeName nm).contains t.clickup_id) with
    | some t => some t.clickup_id
    | none => old

/-! ## Helper lemmas -/

/-- When the parser abstraction yields no draft (no grammar match, or a
total duration of zero), the reconciler leaves no time-log row — and
writes one (the delete) exactly when a row existed. -/
theorem refreshTimeLog_eq_none_of_no_draft (idx : List CuTask)
    (bt : Option String) (now : Nat) (m : String) (l : Option TimeLog)
    (h : parsedDraft m = none) :
    (refreshTimeLog idx bt now m l).1 = none ∧
    (refreshTimeLog idx bt now m l).2 = l.isSome := by
  unfold parsedDraft at h
  unfold refreshTimeLog
  cases hp : parseSmart m with
  | none => cases l <;> exact ⟨rfl, rfl⟩
  | some d =>
    rw [hp] at h
    simp only at h
    by_cases hm : minutesOf d.timeToken = 0
    · cases l <;> simp [hm]
    · simp [hm] at h

/-- The task mapping touches only the `clickup_task` link, never the
branch name. -/
theorem mapBranchTask_fst_name (idx : List CuTask) (b : BranchRec) :
    (mapBranchTask idx b).1.name = b.name := by
  unfold mapBranchTask
  by_cases h : (tokenizeName b.name).isEmpty
  · simp [h]
  · simp only [h, Bool.false_eq_true, if_false]
    cases hf : idx.find? (fun t =>
        (match t.user_friendly_id with
         | some f => (tokenizeName b.name).contains f
         | none => false) || (tokenizeName b.name).contains t.clickup_id) with
    | none => rfl
    | some t => by_cases hl : b.clickup_task ≠ some t.clickup_id <;> simp [hl]

/-- The upsert of one remote entry preserves the branch name. -/
theorem upsertRec_name (idx : List CuTask) (e : RemoteBranch) (b : BranchRec) :
    (upsertRec idx e b).name = b.name := by
  unfold upsertRec
  rw [mapBranchTask_fst_name]

/-- `mapBranchTask` returns its input with the task link replaced by
`resolvedLink`. -/
theorem mapBranchTask_fst_clickup (idx : List CuTask) (b : BranchRec) :
    (mapBranchTask idx b).1 =
      { b with clickup_task := resolvedLink idx b.name b.clickup_task } := by
  obtain ⟨nm, act, sha, prot, task⟩ := b
  unfold mapBranchTask resolvedLink
  by_cases htok : (tokenizeName nm).isEmpty
  · simp [htok]
  · simp only [htok, Bool.false_eq_true, if_false]
    cases hf : idx.find? (fun t =>
        (match t.user_friendly_id with
         | some f => (tokenizeName nm).contains f
         | none => false) || (tokenizeName nm).contains t.clickup_id) with
    | none => rfl
    | some t =>
      by_cases hl : task = some t.clickup_id
      · simp [hl]
      · simp [hl]

/-- Closed form of the upsert: name kept, flags and sha from the remote
entry, task link resolved from the name tokens with the old link as
fallback. -/
theorem upsertRec_eq (idx : List CuTask) (e : RemoteBranch) (b : BranchRec) :
    upsertRec idx e b =
      ⟨b.name, true, e.commit_sha, e.protected_flag,
        resolvedLink idx b.name b.clickup_task⟩ := by
  unfold upsertRec
  rw [mapBranchTask_fst_clickup]

/-- Resolving an already resolved link changes nothing. -/
theorem resolvedLink_idem (idx : List CuTask) (nm : String) (old : Option String) :
    resolvedLink idx nm (resolvedLink idx nm old) = resolvedLink idx nm old := by
  unfold resolvedLink
  by_cases htok : (tokenizeName nm).isEmpty
  · simp [htok]
  · simp only [htok, Bool.false_eq_true, if_false]
    cases hf : idx.find? (fun t =>
        (match t.user_friendly_id with
         | some f => (tokenizeName nm).contains f
         | none => false) || (tokenizeName nm).contains t.clickup_id) with
    | none => rfl
    | some t => rfl

/-- Re-applying the same remote entry to an already upserted row is the
identity: the flag/sha fields are overwritten with the same values and
the task link has already converged. -/
theorem upsertRec_idem (idx : List CuTask) (e : RemoteBranch) (b : BranchRec) :
    upsertRec idx e (upsertRec idx e b) = upsertRec idx e b := by
  rw [upsertRec_eq idx e b, upsertRec_eq, resolvedLink_idem]

/-- Mapping a pointwise-identity function over a list is the
identity. -/
theorem map_id_of {α : Type _} (bs : List α) (f : α → α)
    (h : ∀ x ∈ bs, f x = x) : bs.map f = bs :=
  (List.map_congr_left fun a ha => h a ha).trans (List.map_id bs)

/-- `find?` by name commutes with mapping a name-preserving function. -/
theorem find?_name_map (f : BranchRec → BranchRec)
    (hf : ∀ x, (f x).name = x.name) (bs : List BranchRec) (n : String) :
    (bs.map f).find? (·.name == n) = (bs.find? (·.name == n)).map f := by
  induction bs with
  | nil => rfl
  | cons b bs ih =>
    by_cases hb : b.name = n
    · simp [List.find?_cons, hf, hb]
    · simp [List.find?_cons, hf, hb, ih]

/-- Mapping a name-preserving function does not change the name
column. -/
theorem names_map (f : BranchRec → BranchRec)
    (hf : ∀ x, (f x).name = x.name) (bs : List BranchRec) :
    (bs.map f).map (·.name) = bs.map (·.name) := by
  rw [List.map_map]
  exact List.map_congr_left fun a _ => hf a

/-- With unique branch names (the `uniq_repo_branch_name` DB
constraint), the row `find?` locates by name is the only row with that
name. -/
theorem eq_of_find?_name (bs : List BranchRec) (n : String) (b x : BranchRec)
    (hnd : (bs.map (·.name)).Nodup)
    (hf : bs.find? (·.name == n) = some b) (hx : x ∈ bs) (hxn : x.name = n) :
    x = b := by
  induction bs with
  | nil => exact absurd hx (List.not_mem_nil x)
  | cons y ys ih =>
    rw [List.map_cons, List.nodup_cons] at hnd
    by_cases hy : y.name = n
    · have hb : b = y := by simp [List.find?_cons, hy] at hf; exact hf.symm
      rcases List.mem_cons.mp hx with rfl | hxs
      · exact hb.symm
      · have hmem : x.name ∈ ys.map (·.name) := List.mem_map_of_mem (·.name) hxs
        rw [hxn, ← hy] at hmem
        exact absurd hmem hnd.1
    · rw [List.find?_cons] at hf
      simp only [show (y.name == n) = false by simp [hy]] at hf
      rcases List.mem_cons.mp hx with rfl | hxs
      · exact absurd hxn hy
      · exact ih hnd.2 hf hxs

/-- A remote entry that fails the name guard or the author filter
leaves the loop state untouched. -/
theorem processEntry_not_included (idx : List CuTask) (fe : Bool)
    (st : FBState) (e : RemoteBranch) (h : includedName fe e = none) :
    processEntry idx fe st e = st := by
  unfold processEntry
  rw [h]

/-- Update path of the loop body: the found row is upserted in place. -/
theorem processEntry_branches_found (idx : List CuTask) (fe : Bool)
    (st : FBState) (e : RemoteBranch) (n : String) (b : BranchRec)
    (h : includedName fe e = some n)
    (hf : st.branches.find? (·.name == n) = some b) :
    (processEntry idx fe st e).branches =
      st.branches.map (fun x => if x.name = n then upsertRec idx e b else x) := by
  unfold processEntry
  rw [h]
  dsimp only
  rw [hf]
  rfl

/-- Update path leaves the `created` counter alone. -/
theorem processEntry_created_found (idx : List CuTask) (fe : Bool)
    (st : FBState) (e : RemoteBranch) (n : String) (b : BranchRec)
    (h : includedName fe e = some n)
    (hf : st.branches.find? (·.name == n) = some b) :
    (processEntry idx fe st e).created = st.created := by
  unfold processEntry
  rw [h]
  dsimp only
  rw [hf]

/-- Create path of the loop body: a fresh row is appended. -/
theorem processEntry_branches_create (idx : List CuTask) (fe : Bool)
    (st : FBState) (e : RemoteBranch) (n : String)
    (h : includedName fe e = some n)
    (hf : st.branches.find? (·.name == n) = none) :
    (processEntry idx fe st e).branches =
      st.branches ++
        [upsertRec idx e ⟨n, true, e.commit_sha, e.protected_flag, none⟩] := by
  unfold processEntry
  rw [h]
  dsimp only
  rw [hf]
  rfl

/-- The head of the "seen" list when the head entry is included. -/
theorem seenNames_cons_some (fe : Bool) (e : RemoteBranch)
    (es : List RemoteBranch) (n : String) (h : includedName fe e = some n) :
    seenNames fe (e :: es) = n :: seenNames fe es := by
  simp [seenNames, List.filterMap_cons, h]

/-- The "seen" list skips a non-included head entry. -/
theorem seenNames_cons_none (fe : Bool) (e : RemoteBranch)
    (es : List RemoteBranch) (h : includedName fe e = none) :
    seenNames fe (e :: es) = seenNames fe es := by
  simp [seenNames, List.filterMap_cons, h]

/-- Rows whose name never appears among the included remote names keep
their exact `find?`-by-name image across the whole loop. -/
theorem foldl_find?_not_seen (idx : List CuTask) (fe : Bool)
    (entries : List RemoteBranch) :
    ∀ (st : FBState) (n : String),
      (seenNames fe entries).contains n = false →
      ((entries.foldl (processEntry idx fe) st).branches.find? (·.name == n)) =
        st.branches.find? (·.name == n) := by
  induction entries with
  | nil => intro st n _; rfl
  | cons e es ih =>
    intro st n h
    rw [List.foldl_cons]
    cases hi : includedName fe e with
    | none =>
      rw [processEntry_not_included idx fe st e hi]
      exact ih st n ((seenNames_cons_none fe e es hi) ▸ h)
    | some nn =>
      rw [seenNames_cons_some fe e es nn hi, List.contains_cons,
        Bool.or_eq_false_iff] at h
      obtain ⟨hne, htail⟩ := h
      have hnen : ¬n = nn := by simpa using hne
      rw [ih _ n htail]
      cases hf : st.branches.find? (·.name == nn) with
      | some b =>
        rw [processEntry_branches_found idx fe st e nn b hi hf]
        have hb : b.name = nn := by
          have := List.find?_some hf
          simpa using this
        have hpres : ∀ x : BranchRec,
            ((fun x => if x.name = nn then upsertRec idx e b else x) x).name =
              x.name := by
          intro x
          by_cases hx : x.name = nn
          · simp [hx, upsertRec_name, hb]
          · simp [hx]
        rw [find?_name_map _ hpres]
        cases hr : st.branches.find? (·.name == n) with
        | none => rfl
        | some r =>
          have hrn : r.name = n := by
            have := List.find?_some hr
            simpa using this
          simp [hrn, hnen]
      | none =>
        rw [processEntry_branches_create idx fe st e nn hi hf,
          List.find?_append]
        have hu : (upsertRec idx e
            (⟨nn, true, e.commit_sha, e.protected_flag, none⟩ : BranchRec)).name =
            nn := by
          rw [upsertRec_name]
        have hnn : (nn == n) = false := by
          rw [beq_eq_false_iff_ne]
          exact fun hc => hnen hc.symm
        have hone : List.find? (·.name == n)
            [upsertRec idx e ⟨nn, true, e.commit_sha, e.protected_flag, none⟩] =
            none := by
          simp [List.find?_cons, hu, hnn]
        rw [hone, Option.or_none]

/-- A row whose name never appears among the included remote names
survives the whole loop verbatim. -/
theorem foldl_mem_not_seen (idx : List CuTask) (fe : Bool)
    (entries : List RemoteBranch) :
    ∀ (st : FBState) (b : BranchRec), b ∈ st.branches →
      (seenNames fe entries).contains b.name = false →
      b ∈ (entries.foldl (processEntry idx fe) st).branches := by
  induction entries with
  | nil => intro st b hb _; exact hb
  | cons e es ih =>
    intro st b hb h
    rw [List.foldl_cons]
    cases hi : includedName fe e with
    | none =>
      rw [processEntry_not_included idx fe st e hi]
      exact ih st b hb ((seenNames_cons_none fe e es hi) ▸ h)
    | some nn =>
      rw [seenNames_cons_some fe e es nn hi, List.contains_cons,
        Bool.or_eq_false_iff] at h
      obtain ⟨hne, htail⟩ := h
      have hnen : ¬b.name = nn := by simpa using hne
      cases hf : st.branches.find? (·.name == nn) with
      | some c =>
        apply ih _ b _ htail
        rw [processEntry_branches_found idx fe st e nn c hi hf]
        have : (if b.name = nn then upsertRec idx e c else b) = b := by
          simp [hnen]
        exact this ▸ List.mem_map_of_mem _ hb
      | none =>
        apply ih _ b _ htail
        rw [processEntry_branches_create idx fe st e nn hi hf]
        exact List.mem_append_left _ hb

/-- The loop never drops a branch name: every row of the initial state
has a row with the same name in the final state. -/
theorem foldl_name_mem (idx : List CuTask) (fe : Bool)
    (entries : List RemoteBranch) :
    ∀ (st : FBState) (b : BranchRec), b ∈ st.branches →
      ∃ b' ∈ (entries.foldl (processEntry idx fe) st).branches,
        b'.name = b.name := by
  induction entries with
  | nil => intro st b hb; exact ⟨b, hb, rfl⟩
  | cons e es ih =>
    intro st b hb
    rw [List.foldl_cons]
    cases hi : includedName fe e with
    | none =>
      rw [processEntry_not_included idx fe st e hi]
      exact ih st b hb
    | some nn =>
      cases hf : st.branches.find? (·.name == nn) with
      | some c =>
        have hmem : (if b.name = nn then upsertRec idx e c else b) ∈
            (processEntry idx fe st e).branches := by
          rw [processEntry_branches_found idx fe st e nn c hi hf]
          exact List.mem_map_of_mem _ hb
        have hname : (if b.name = nn then upsertRec idx e c else b).name =
            b.name := by
          by_cases hb' : b.name = nn
          · have hc : c.name = nn := by
              have := List.find?_some hf
              simpa using this
            simp [hb', upsertRec_name, hc]
          · simp [hb']
        obtain ⟨b', hb', he⟩ := ih _ _ hmem
        exact ⟨b', hb', he.trans hname⟩
      | none =>
        have hmem : b ∈ (processEntry idx fe st e).branches := by
          rw [processEntry_branches_create idx fe st e nn hi hf]
          exact List.mem_append_left _ hb
        exact ih _ b hmem

/-- After the loop, the row stored under an included name is the upsert
of some row by that entry (unique included names). -/
theorem foldl_find?_at_seen (idx : List CuTask) (fe : Bool)
    (entries : List RemoteBranch) :
    ∀ (st : FBState) (e : RemoteBranch) (n : String), e ∈ entries →
      includedName fe e = some n → (seenNames fe entries).Nodup →
      ∃ r, ((entries.foldl (processEntry idx fe) st).branches.find?
          (·.name == n)) = some (upsertRec idx e r) ∧ r.name = n := by
  induction entries with
  | nil => intro st e n he; exact absurd he (List.not_mem_nil e)
  | cons e' es ih =>
    intro st e n he hi hnd
    rw [List.foldl_cons]
    rcases List.mem_cons.mp he with rfl | hmem
    · rw [seenNames_cons_some fe e es n hi, List.nodup_cons] at hnd
      have hcn : (seenNames fe es).contains n = false := by
        have := hnd.1
        simpa using this
      rw [foldl_find?_not_seen idx fe es _ n hcn]
      cases hf : st.branches.find? (·.name == n) with
      | some b =>
        have hb : b.name = n := by
          have := List.find?_some hf
          simpa using this
        rw [processEntry_branches_found idx fe st e n b hi hf]
        have hpres : ∀ x : BranchRec,
            ((fun x => if x.name = n then upsertRec idx e b else x) x).name =
              x.name := by
          intro x
          by_cases hx : x.name = n
          · simp [hx, upsertRec_name, hb]
          · simp [hx]
        rw [find?_name_map _ hpres, hf]
        exact ⟨b, by simp [hb], hb⟩
      | none =>
        rw [processEntry_branches_create idx fe st e n hi hf,
          List.find?_append, hf]
        refine ⟨⟨n, true, e.commit_sha, e.protected_flag, none⟩, ?_, rfl⟩
        simp [List.find?_cons, upsertRec_name]
    · have hnd' : (seenNames fe es).Nodup := by
        cases hie : includedName fe e' with
        | none => rwa [seenNames_cons_none fe e' es hie] at hnd
        | some nn =>
          rw [seenNames_cons_some fe e' es nn hie, List.nodup_cons] at hnd
          exact hnd.2
      exact ih _ e n hmem hi hnd'

/-- The loop preserves uniqueness of branch names (fresh rows are
appended only for names absent from the table). -/
theorem foldl_names_nodup (idx : List CuTask) (fe : Bool)
    (entries : List RemoteBranch) :
    ∀ st : FBState, ((st.branches.map (·.name)).Nodup) →
      (((entries.foldl (processEntry idx fe) st).branches.map (·.name)).Nodup) := by
  induction entries with
  | nil => intro st h; exact h
  | cons e es ih =>
    intro st h
    rw [List.foldl_cons]
    cases hi : includedName fe e with
    | none =>
      rw [processEntry_not_included idx fe st e hi]
      exact ih st h
    | some nn =>
      apply ih
      cases hf : st.branches.find? (·.name == nn) with
      | some b =>
        rw [processEntry_branches_found idx fe st e nn b hi hf]
        have hb : b.name = nn := by
          have := List.find?_some hf
          simpa using this
        have hpres : ∀ x : BranchRec,
            ((fun x => if x.name = nn then upsertRec idx e b else x) x).name =
              x.name := by
          intro x
          by_cases hx : x.name = nn
          · simp [hx, upsertRec_name, hb]
          · simp [hx]
        rw [names_map _ hpres]
        exact h
      | none =>
        rw [processEntry_branches_create idx fe st e nn hi hf, List.map_append]
        have hu : (upsertRec idx e
            (⟨nn, true, e.commit_sha, e.protected_flag, none⟩ : BranchRec)).name =
            nn := by
          rw [upsertRec_name]
        apply List.Nodup.append h (by simp)
        intro a ha hmem2
        simp only [List.map_cons, List.map_nil, hu, List.mem_singleton] at hmem2
        obtain ⟨x, hx, hxn⟩ := List.mem_map.mp ha
        rw [List.find?_eq_none] at hf
        have hxf := hf x hx
        rw [hxn, hmem2] at hxf
        simp at hxf

/-- If every included entry's stored row is already a fixed point of
its upsert, the whole loop leaves the branch table untouched and
creates nothing. -/
theorem foldl_noop (idx : List CuTask) (fe : Bool)
    (entries : List RemoteBranch) :
    ∀ st : FBState, ((st.branches.map (·.name)).Nodup) →
      (∀ e ∈ entries, ∀ n, includedName fe e = some n →
        ∃ b, st.branches.find? (·.name == n) = some b ∧
          upsertRec idx e b = b) →
      (entries.foldl (processEntry idx fe) st).branches = st.branches ∧
      (entries.foldl (processEntry idx fe) st).created = st.created := by
  induction entries with
  | nil => intro st _ _; exact ⟨rfl, rfl⟩
  | cons e es ih =>
    intro st hnd hfix
    rw [List.foldl_cons]
    cases hi : includedName fe e with
    | none =>
      rw [processEntry_not_included idx fe st e hi]
      exact ih st hnd fun e' he' => hfix e' (List.mem_cons_of_mem e he')
    | some n =>
      obtain ⟨b, hf, hb⟩ := hfix e (List.mem_cons_self e es) n hi
      have hbr : (processEntry idx fe st e).branches = st.branches := by
        rw [processEntry_branches_found idx fe st e n b hi hf]
        apply map_id_of
        intro x hx
        by_cases hxn : x.name = n
        · have hxb : x = b := eq_of_find?_name st.branches n b x hnd hf hx hxn
          rw [if_pos hxn, hxb, hb]
        · rw [if_neg hxn]
      have hcr : (processEntry idx fe st e).created = st.created :=
        processEntry_created_found idx fe st e n b hi hf
      have := ih (processEntry idx fe st e) (hbr ▸ hnd)
        (fun e' he' n' hi' => hbr ▸ hfix e' (List.mem_cons_of_mem e he') n' hi')
      rw [hbr, hcr] at this
      exact this

/-- Projection: the branch table `fetch_branches` leaves behind is the
loop result with the missing-and-active rows soft-inactivated. -/
theorem fetchBranches_branches (idx : List CuTask) (fe : Bool)
    (entries : List RemoteBranch) (bs0 : List BranchRec) (now : Nat) :
    (fetchBranches idx fe entries bs0 now).branches =
      ((entries.foldl (processEntry idx fe)
          ⟨bs0, 0, 0, 0⟩).branches).map
        (fun b => if !(seenNames fe entries).contains b.name && b.is_active
                  then { b with is_active := false } else b) := rfl

/-- Projection: the `created` counter comes from the loop alone. -/
theorem fetchBranches_created (idx : List CuTask) (fe : Bool)
    (entries : List RemoteBranch) (bs0 : List BranchRec) (now : Nat) :
    (fetchBranches idx fe entries bs0 now).created =
      (entries.foldl (processEntry idx fe) ⟨bs0, 0, 0, 0⟩).created := rfl

/-- Projection: `inactivated` counts the missing-and-active rows. -/
theorem fetchBranches_inactivated (idx : List CuTask) (fe : Bool)
    (entries : List RemoteBranch) (bs0 : List BranchRec) (now : Nat) :
    (fetchBranches idx fe entries bs0 now).inactivated =
      ((entries.foldl (processEntry idx fe) ⟨bs0, 0, 0, 0⟩).branches).countP
        (fun b => !(seenNames fe entries).contains b.name && b.is_active) := rfl

/-- The soft-delete pass preserves names. -/
theorem flip_name (seen : List String) (b : BranchRec) :
    ((fun b => if !seen.contains b.name && b.is_active
               then { b with is_active := false } else b) b).name = b.name := by
  dsimp only
  split <;> rfl

/-- The soft-delete pass fixes a row whose guard is false. -/
theorem flip_id_of_guard_false (seen : List String) (b : BranchRec)
    (h : (!seen.contains b.name && b.is_active) = false) :
    (if !seen.contains b.name && b.is_active
     then { b with is_active := false } else b) = b := by
  rw [h, if_neg Bool.false_ne_true]

/-- The soft-delete pass fixes every row whose name was seen. -/
theorem flip_id_of_contains (seen : List String) (b : BranchRec)
    (h : seen.contains b.name = true) :
    (if !seen.contains b.name && b.is_active
     then { b with is_active := false } else b) = b := by
  apply flip_id_of_guard_false
  rw [h]
  rfl

/-- After the soft-delete pass, no row still satisfies the
soft-delete guard. -/
theorem guard_flip_false (seen : List String) (x : BranchRec) :
    (!seen.contains ((if !seen.contains x.name && x.is_active
        then { x with is_active := false } else x)).name &&
      ((if !seen.contains x.name && x.is_active
        then { x with is_active := false } else x)).is_active) = false := by
  cases hg : (!seen.contains x.name && x.is_active) with
  | true =>
    split
    · exact Bool.and_false _
    · rename_i hcontra
      exact absurd rfl hcontra
  | false =>
    split
    · rename_i hcontra
      exact absurd hcontra Bool.false_ne_true
    · exact hg

/-! ## Claims -/

/-- **C6.** The parser embedded in `refresh_time_log_from_message`
satisfies the spec's test vectors: `"fix bug #I-002 1h30m"` gives a
draft of 90 minutes with task token `"I-002"`; `"quick patch ~45m."`
gives 45 minutes and no task token (the trailing period does not block
the match); `"no time here"` gives no draft; `"#T1 0h0m"` matches the
grammar but its total duration is 0, which is treated as no token
found. -/
theorem c6_parser_examples :
    parsedDraft "fix bug #I-002 1h30m" = some (90, some "I-002") ∧
    parsedDraft "quick patch ~45m." = some (45, none) ∧
    parsedDraft "no time here" = none ∧
    parsedDraft "#T1 0h0m" = none ∧
    parseSmart "#T1 0h0m" = some ⟨some "T1", "0h0m"⟩ :=
  ⟨rfl, rfl, rfl, rfl, rfl⟩

/-- **C5.** With `since_last = True` (the default used by the
orchestrator), `sync_branch_commits` passes `since =` the branch's
`last_commits_synced_at` to the remote fetch — `some` when the cursor
is present, no bound when it is absent — and after the batch the cursor
is set to the batch-completion time `now`, for every remote source
(hence also when no commits were found, and never to the newest
commit's timestamp). -/
theorem c5_cursor_correctness (cfg : GhConfig) (idx : List CuTask)
    (br : BranchState) (src : Option Nat → List RemoteCommit) (now : Nat) :
    (syncBranchCommits cfg idx true br src now).sinceUsed =
      br.last_commits_synced_at ∧
    (syncBranchCommits cfg idx true br src now).branch.last_commits_synced_at =
      some now :=
  ⟨rfl, rfl⟩

/-- **C2 (counterexample).** Two active repositories where syncing the
first raises: the loop body of `sync_all_repos` propagates the
exception, so the second repository is never attempted — the claim that
every active repository is attempted even when one fails is false. -/
theorem c2_counterexample :
    attemptedRepos (fun r => if r.rid = 1 then Except.error () else Except.ok 0)
        [⟨1, true⟩, ⟨2, true⟩] = [⟨1, true⟩] ∧
    (⟨2, true⟩ : RepoRec) ∉
      attemptedRepos (fun r => if r.rid = 1 then Except.error () else Except.ok 0)
        [⟨1, true⟩, ⟨2, true⟩] ∧
    syncAllRepos (fun r => if r.rid = 1 then Except.error () else Except.ok 0)
        [⟨1, true⟩, ⟨2, true⟩] = Except.error () := by
  refine ⟨rfl, ?_, rfl⟩
  decide

/-- **C2 (amended).** `sync_all_repos` attempts the active repositories
in order but is fail-fast, not collect-and-continue: it attempts every
active repository up to and including the first whose sync fails, and
the repositories after a failure are not attempted.  (When no sync
fails the attempted list is all active repositories.) -/
theorem c2_amended_fail_fast {E S : Type} (f : RepoRec → Except E S)
    (repos : List RepoRec) :
    attemptedRepos f repos =
      (repos.filter (·.is_active)).takeWhile (fun r => isOkE (f r)) ++
        ((repos.filter (·.is_active)).dropWhile (fun r => isOkE (f r))).take 1 := by
  unfold attemptedRepos
  induction repos.filter (·.is_active) with
  | nil => rfl
  | cons r rs ih =>
    unfold attemptedGo
    cases hf : f r with
    | error e => simp [List.takeWhile_cons, List.dropWhile_cons, hf, isOkE]
    | ok s => simp [List.takeWhile_cons, List.dropWhile_cons, hf, isOkE, ih]

/-- **C1 (counterexample).** Rerunning on an unchanged message is not
write-free and the stored fields are not all identical: whenever a log
row is present, `refresh_time_log_from_message` unconditionally
executes `log.save(update_fields=[..., "updated_at"])`
(models.py:322-329), a row write on every rerun, and `updated_at` is
`auto_now=True` (models.py:350), so that stored column changes with the
rerun instant.  Concretely, for the unchanged message `"~45m"` the
first run (at instant 1) leaves `updated_at = 1`, and the rerun (at
instant 2) performs a write and moves `updated_at` to 2. -/
theorem c1_counterexample :
    (refreshTimeLog [] none 2 "~45m"
        ((refreshTimeLog [] none 1 "~45m" none).1)).2 = true ∧
    ((refreshTimeLog [] none 2 "~45m"
        ((refreshTimeLog [] none 1 "~45m" none).1)).1.map (·.updated_at)) =
      some 2 ∧
    ((refreshTimeLog [] none 1 "~45m" none).1.map (·.updated_at)) = some 1 :=
  ⟨rfl, rfl, rfl⟩

/-- **C1 (amended).** Rerunning `refresh_time_log_from_message` on a
commit whose message, task index and branch task link are unchanged
since the last reconciliation (hypothesis `h`) still classifies as
`unchanged`, and reproduces every stored TimeLog field —
`is_synced_with_clickup` (False both times) and `synced_at` included —
except the `auto_now` bookkeeping column `updated_at`, which the
unconditional `log.save` bumps to the rerun instant.  The rerun
performs a row write exactly when a TimeLog exists, so it is write-free
only in the no-log case. -/
theorem c1_amended_refresh_idempotent (idx : List CuTask) (bt : Option String)
    (m : String) (now1 now2 : Nat) (l0 l1 : Option TimeLog)
    (h : l1 = (refreshTimeLog idx bt now1 m l0).1) :
    classifySignal l1 ((refreshTimeLog idx bt now2 m l1).1) =
      Signal.unchanged ∧
    (refreshTimeLog idx bt now2 m l1).1 =
      l1.map (fun l => { l with updated_at := now2 }) ∧
    (refreshTimeLog idx bt now2 m l1).2 = l1.isSome := by
  subst h
  cases hp : parseSmart m with
  | none => cases l0 <;> simp [refreshTimeLog, hp, classifySignal]
  | some d =>
    by_cases hm : minutesOf d.timeToken = 0
    · cases l0 <;> simp [refreshTimeLog, hp, hm, classifySignal]
    · cases l0 with
      | none => simp [refreshTimeLog, hp, hm, classifySignal]
      | some l => simp [refreshTimeLog, hp, hm, classifySignal]

/-- **C1 (amended, witness).** The amended theorem at a concrete input:
message `"~45m"`, empty index, no branch task, no prior log, first run
at instant 1 and rerun at instant 2. -/
theorem c1_amended_refresh_idempotent_witness :
    classifySignal ((refreshTimeLog [] none 1 "~45m" none).1)
      ((refreshTimeLog [] none 2 "~45m"
        ((refreshTimeLog [] none 1 "~45m" none).1)).1) = Signal.unchanged ∧
    (refreshTimeLog [] none 2 "~45m"
        ((refreshTimeLog [] none 1 "~45m" none).1)).1 =
      ((refreshTimeLog [] none 1 "~45m" none).1).map
        (fun l => { l with updated_at := 2 }) ∧
    (refreshTimeLog [] none 2 "~45m"
        ((refreshTimeLog [] none 1 "~45m" none).1)).2 =
      ((refreshTimeLog [] none 1 "~45m" none).1).isSome :=
  c1_amended_refresh_idempotent [] none "~45m" 1 2 none _ rfl

/-- **C10.** When the parsed draft carries a task token that no task in
the index matches (and also when it carries no token at all — the
hypothesis `hnm` is vacuous then), the created or updated time log's
task link falls back to the task already linked to the commit's branch:
its `clickup_task` equals `bt`, so it is left without a task link
exactly when the branch has none. -/
theorem c10_task_fallback (idx : List CuTask) (bt : Option String)
    (now : Nat) (m : String) (l : Option TimeLog) (d : Draft)
    (hp : parseSmart m = some d) (hm : minutesOf d.timeToken ≠ 0)
    (hnm : ∀ tid, d.taskId = some tid → resolveTask idx tid = none) :
    ∃ l', (refreshTimeLog idx bt now m l).1 = some l' ∧
      l'.clickup_task = bt := by
  unfold refreshTimeLog
  rw [hp]
  simp only [hm, if_false]
  cases ht : d.taskId with
  | none => cases l <;> simp
  | some tid =>
    cases l <;> simp [hnm tid ht]

/-- **C10 (witness).** Concrete input: message `"#ZZZ 5m"` whose token
`"ZZZ"` matches nothing in a one-task index, branch linked to task
`"abc"`: the new log's `clickup_task` is `some "abc"`. -/
theorem c10_task_fallback_witness :
    ∃ l', (refreshTimeLog [⟨"abc", some "I-001"⟩] (some "abc") 7 "#ZZZ 5m"
        none).1 = some l' ∧ l'.clickup_task = some "abc" :=
  c10_task_fallback [⟨"abc", some "I-001"⟩] (some "abc") 7 "#ZZZ 5m" none
    ⟨some "ZZZ", "5m"⟩ rfl (by decide)
    (by intro tid h; injection h with h; subst h; rfl)

/-- **C8.** `update_message_if_changed` to a message without a valid
token: when the commit held a time log and its old message carried a
token (so the two messages necessarily differ), the log is deleted;
when the commit held no time log, the time-log state stays absent and
nothing but the stored message changes (and not even that when the new
message is identical). -/
theorem c8_message_edit_deletes_log (idx : List CuTask) (bt : Option String)
    (now : Nat) (c : Commit) (newM : String) (hn : parsedDraft newM = none) :
    ((c.log ≠ none ∧ parsedDraft c.message ≠ none) →
      (updateMessageIfChanged idx bt now c newM).log = none) ∧
    (c.log = none →
      updateMessageIfChanged idx bt now c newM =
        if newM = c.message then c else { c with message := newM }) := by
  constructor
  · rintro ⟨-, hold⟩
    have hne : newM ≠ c.message := fun he => hold (he ▸ hn)
    unfold updateMessageIfChanged
    simp [hne, (refreshTimeLog_eq_none_of_no_draft idx bt now newM c.log hn).1]
  · intro hlog
    unfold updateMessageIfChanged
    by_cases he : newM = c.message
    · simp [he]
    · cases c with
      | mk sha msg an ae dt lg =>
        simp only at hlog
        subst hlog
        simp [he,
          (refreshTimeLog_eq_none_of_no_draft idx bt now newM none hn).1]

/-- **C8 (witness).** Concrete inputs: a commit whose message
`"fix #I-002 1h30m"` holds a 90-minute log loses the log when the
message becomes `"no token here"`; a log-less commit keeps an absent
log and only its message changes. -/
theorem c8_message_edit_deletes_log_witness :
    (updateMessageIfChanged [] none 5
        { sha := "a", message := "fix #I-002 1h30m", author_name := "n",
          author_email := "e", date := 0,
          log := some { total_minutes := 90,
                        parsed_from_message := "#I-002 1h30m",
                        task_id := some "I-002", clickup_task := none,
                        is_synced_with_clickup := false, synced_at := none,
                        updated_at := 0 } }
        "no token here").log = none ∧
    updateMessageIfChanged [] none 5
        { sha := "b", message := "old text", author_name := "n",
          author_email := "e", date := 0, log := none } "no token here" =
      { sha := "b", message := "no token here", author_name := "n",
        author_email := "e", date := 0, log := none } := by
  constructor
  · exact (c8_message_edit_deletes_log [] none 5 _ "no token here" rfl).1
      ⟨by simp, by decide⟩
  · have h := (c8_message_edit_deletes_log [] none 5
      { sha := "b", message := "old text", author_name := "n",
        author_email := "e", date := 0, log := none } "no token here" rfl).2 rfl
    simpa using h

/-- **C9 (counterexample).** The author-email allow-list filter does
not skip a commit whose author email is absent: with the allow-list
`["me@x.com"]` configured, username `"me"`, a remote commit with no
author email and handle `"other"` — matching neither the allow-list nor
the username — is stored anyway (`created = 1`), refuting the claim
that such a commit is never stored. -/
theorem c9_counterexample :
    (syncBranchCommits ⟨some "me", ["me@x.com"]⟩ [] true
        ⟨none, none, []⟩
        (fun _ => [⟨some "s1", some "msg", some "b", none, some "other", some 1⟩])
        5).created = 1 ∧
    (syncBranchCommits ⟨some "me", ["me@x.com"]⟩ [] true
        ⟨none, none, []⟩
        (fun _ => [⟨some "s1", some "msg", some "b", none, some "other", some 1⟩])
        5).branch.commits.map (·.sha) = ["s1"] ∧
    ¬ (["me@x.com"].contains ((none : Option String).getD "")) ∧
    (some "other" : Option String) ≠ some "me" := by
  refine ⟨rfl, rfl, by decide, by decide⟩

/-- **C9 (amended).** The filter skips a commit exactly when the
allow-list is configured, the author email is *present and nonempty*
and not in the allow-list, and the author handle differs from the
configured username: such a commit is never stored (the loop leaves the
state untouched).  A commit with an absent or empty author email passes
the filter regardless of its handle. -/
theorem c9_amended_email_filter (cfg : GhConfig) (idx : List CuTask)
    (bt : Option String) (now : Nat) (st : CSState) (item : RemoteCommit)
    (hconf : cfg.preferred_author_emails.isEmpty = false)
    (hemail : truthy item.author_email = true)
    (hnot : cfg.preferred_author_emails.contains (item.author_email.getD "") = false)
    (hlogin : (item.login == some (cfg.username.getD "")) = false) :
    processItem cfg idx bt now st item = st := by
  have hskip : emailFilterSkips cfg item = true := by
    unfold emailFilterSkips
    rw [hconf, hemail, hnot, hlogin]
    rfl
  unfold processItem
  rw [hskip]
  by_cases hs : truthy item.sha <;> simp [hs]

/-- **C9 (amended, witness).** A commit with present email
`"x@y.com"` ∉ `["me@x.com"]` and handle `"other"` ≠ `"me"` leaves the
loop state untouched. -/
theorem c9_amended_email_filter_witness :
    processItem ⟨some "me", ["me@x.com"]⟩ [] none 5
        ⟨[], 0, 0, 0⟩
        ⟨some "s1", some "msg", some "b", some "x@y.com", some "other", some 1⟩ =
      ⟨[], 0, 0, 0⟩ :=
  c9_amended_email_filter ⟨some "me", ["me@x.com"]⟩ [] none 5 ⟨[], 0, 0, 0⟩
    ⟨some "s1", some "msg", some "b", some "x@y.com", some "other", some 1⟩
    rfl rfl (by decide) (by decide)

/-- **C4 (code bug).** `sync_branch_commits` initialises and returns an
`updated` counter but never increments it: syncing a branch whose one
remote commit is already present with a different message text does
update the stored message (the store now reads `"new text"`), yet the
returned summary has `updated = 0` — against the spec's contract that
`updated` counts the message-updated commits (the parallel admin loop
`sync_selected_branches` does count them). -/
theorem c4_updated_counter_never_incremented :
    (syncBranchCommits ⟨some "me", []⟩ [] true
        ⟨none, none,
          [{ sha := "aaa", message := "old text", author_name := "n",
             author_email := "e", date := 0, log := none }]⟩
        (fun _ => [⟨some "aaa", some "new text", some "n", some "e",
                    some "me", some 0⟩]) 7).updated = 0 ∧
    (syncBranchCommits ⟨some "me", []⟩ [] true
        ⟨none, none,
          [{ sha := "aaa", message := "old text", author_name := "n",
             author_email := "e", date := 0, log := none }]⟩
        (fun _ => [⟨some "aaa", some "new text", some "n", some "e",
                    some "me", some 0⟩]) 7).branch.commits.map (·.message) =
      ["new text"] ∧
    (syncBranchCommits ⟨some "me", []⟩ [] true
        ⟨none, none,
          [{ sha := "aaa", message := "old text", author_name := "n",
             author_email := "e", date := 0, log := none }]⟩
        (fun _ => [⟨some "aaa", some "new text", some "n", some "e",
                    some "me", some 0⟩]) 7).processed = 1 := by
  refine ⟨rfl, ?_, rfl⟩
  rfl

/-- **C7 (counterexample).** A run in which a *seen* branch's remote
head sha changed: local state has `main` at sha `s1` (active) and `old`
(active); the remote lists only `main`, now at `s2`.  The missing
branch `old` flips to inactive as claimed, but `main` — not a missing
branch — also changes (head sha `s1` to `s2`), refuting "exactly the
missing previously-active branches change, in the `is_active` field
only". -/
theorem c7_counterexample :
    (fetchBranches [] false [⟨some "main", some "s2", false, true⟩]
        [⟨"main", true, some "s1", false, none⟩,
         ⟨"old", true, none, false, none⟩] 9).branches.find?
      (·.name == "main") = some ⟨"main", true, some "s2", false, none⟩ ∧
    (⟨"main", true, some "s2", false, none⟩ : BranchRec) ≠
      ⟨"main", true, some "s1", false, none⟩ ∧
    (fetchBranches [] false [⟨some "main", some "s2", false, true⟩]
        [⟨"main", true, some "s1", false, none⟩,
         ⟨"old", true, none, false, none⟩] 9).branches.find?
      (·.name == "old") = some ⟨"old", false, none, false, none⟩ := by
  refine ⟨rfl, by decide, rfl⟩

/-- **C7 (amended).** In every run of `fetch_branches`: every locally
known branch whose name is absent from the seen set is soft-deleted and
only soft-deleted — it reappears in the final table flipped to inactive
when it was active and verbatim when it was already inactive — and no
branch record is ever removed (every initial name is still present).
Branches that *are* seen are re-upserted and may change beyond
`is_active` (head sha, protected flag, task link), which is what the
original claim missed.  (`fetch_branches` contains no commit operation,
so commits are untouched.) -/
theorem c7_amended_soft_delete (idx : List CuTask) (fe : Bool)
    (entries : List RemoteBranch) (bs0 : List BranchRec) (now : Nat) :
    (∀ b ∈ bs0, (seenNames fe entries).contains b.name = false →
      (if b.is_active then { b with is_active := false } else b) ∈
        (fetchBranches idx fe entries bs0 now).branches) ∧
    (∀ b ∈ bs0, ∃ b' ∈ (fetchBranches idx fe entries bs0 now).branches,
      b'.name = b.name) := by
  constructor
  · intro b hb hcont
    rw [fetchBranches_branches]
    have hmem := foldl_mem_not_seen idx fe entries ⟨bs0, 0, 0, 0⟩ b hb hcont
    have heq : (fun b' : BranchRec =>
        if !(seenNames fe entries).contains b'.name && b'.is_active
        then { b' with is_active := false } else b') b =
        (if b.is_active then { b with is_active := false } else b) := by
      dsimp only
      rw [hcont]
      rfl
    exact heq ▸ List.mem_map_of_mem _ hmem
  · intro b hb
    rw [fetchBranches_branches]
    obtain ⟨b', hb', hn⟩ := foldl_name_mem idx fe entries ⟨bs0, 0, 0, 0⟩ b hb
    exact ⟨_, List.mem_map_of_mem _ hb', (flip_name _ b').trans hn⟩

/-- **C7 (witness).** Concrete run: remote lists nothing, local has the
active branch `old`; afterwards `old` is present, inactive. -/
theorem c7_amended_soft_delete_witness :
    (⟨"old", false, none, false, none⟩ : BranchRec) ∈
      (fetchBranches [] false [] [⟨"old", true, none, false, none⟩] 3).branches ∧
    ∃ b' ∈ (fetchBranches [] false []
        [⟨"old", true, none, false, none⟩] 3).branches, b'.name = "old" := by
  constructor
  · have h := (c7_amended_soft_delete [] false []
        [⟨"old", true, none, false, none⟩] 3).1
      ⟨"old", true, none, false, none⟩ (List.mem_singleton.mpr rfl) rfl
    simpa using h
  · exact (c7_amended_soft_delete [] false []
        [⟨"old", true, none, false, none⟩] 3).2
      ⟨"old", true, none, false, none⟩ (List.mem_singleton.mpr rfl)

/-- **C3 (counterexample).** A second run with identical remote input
is not write-free and does change repository state: one remote branch,
empty local table; each run performs 2 writes (the upsert save and the
repository save — Django's `update_or_create` saves on its update path
whether or not values changed), and the second run moves
`last_branches_synced_at` from `some 1` to `some 2`. -/
theorem c3_counterexample :
    (fetchBranches [] false [⟨some "main", some "s", false, true⟩] [] 1).writes
      = 2 ∧
    (fetchBranches [] false [⟨some "main", some "s", false, true⟩]
        (fetchBranches [] false [⟨some "main", some "s", false, true⟩]
          [] 1).branches 2).writes = 2 ∧
    (fetchBranches [] false [⟨some "main", some "s", false, true⟩] []
        1).last_branches_synced_at = some 1 ∧
    (fetchBranches [] false [⟨some "main", some "s", false, true⟩]
        (fetchBranches [] false [⟨some "main", some "s", false, true⟩]
          [] 1).branches 2).last_branches_synced_at = some 2 :=
  ⟨rfl, rfl, rfl, rfl⟩

/-- **C3 (amended).** Running `fetch_branches` twice with the identical
remote branch list and filter outcome (names unique, as the remote API
and the `uniq_repo_branch_name` constraint guarantee) is idempotent on
the branch table: the second run changes no branch record's stored
fields, creates nothing and inactivates nothing.  It is not free of
writes, however: each seen branch is re-saved with identical values and
the repository's `last_branches_synced_at` is advanced to the second
run's completion time (see the counterexample). -/
theorem c3_amended_second_run_no_change (idx : List CuTask) (fe : Bool)
    (entries : List RemoteBranch) (bs0 : List BranchRec) (now1 now2 : Nat)
    (hnd : ((bs0.map (·.name)).Nodup))
    (hse : ((seenNames fe entries).Nodup)) :
    (fetchBranches idx fe entries
        (fetchBranches idx fe entries bs0 now1).branches now2).branches =
      (fetchBranches idx fe entries bs0 now1).branches ∧
    (fetchBranches idx fe entries
        (fetchBranches idx fe entries bs0 now1).branches now2).created = 0 ∧
    (fetchBranches idx fe entries
        (fetchBranches idx fe entries bs0 now1).branches now2).inactivated = 0 ∧
    (fetchBranches idx fe entries
        (fetchBranches idx fe entries bs0 now1).branches
        now2).last_branches_synced_at = some now2 := by
  have hnd1 : (((fetchBranches idx fe entries bs0 now1).branches.map
      (·.name)).Nodup) := by
    rw [fetchBranches_branches, names_map _ (flip_name (seenNames fe entries))]
    exact foldl_names_nodup idx fe entries ⟨bs0, 0, 0, 0⟩ hnd
  have hguard : ∀ b ∈ (fetchBranches idx fe entries bs0 now1).branches,
      (!(seenNames fe entries).contains b.name && b.is_active) = false := by
    rw [fetchBranches_branches]
    intro b hbmem
    obtain ⟨x, hx, hxe⟩ := List.mem_map.mp hbmem
    subst hxe
    exact guard_flip_false (seenNames fe entries) x
  have hfix : ∀ e ∈ entries, ∀ n, includedName fe e = some n →
      ∃ b, (fetchBranches idx fe entries bs0 now1).branches.find?
          (·.name == n) = some b ∧ upsertRec idx e b = b := by
    intro e he n hi
    obtain ⟨r, hr, hrn⟩ := foldl_find?_at_seen idx fe entries
      ⟨bs0, 0, 0, 0⟩ e n he hi hse
    have hnseen : n ∈ seenNames fe entries := by
      unfold seenNames
      exact List.mem_filterMap.mpr ⟨e, he, hi⟩
    have hcont : (seenNames fe entries).contains n = true :=
      List.elem_eq_true_of_mem hnseen
    have huname : (upsertRec idx e r).name = n := by
      rw [upsertRec_name, hrn]
    have hflipu : (if !(seenNames fe entries).contains
          (upsertRec idx e r).name && (upsertRec idx e r).is_active
        then { upsertRec idx e r with is_active := false }
        else upsertRec idx e r) = upsertRec idx e r := by
      apply flip_id_of_contains
      rw [huname]
      exact hcont
    refine ⟨upsertRec idx e r, ?_, upsertRec_idem idx e r⟩
    rw [fetchBranches_branches,
      find?_name_map _ (flip_name (seenNames fe entries)), hr]
    exact congrArg some hflipu
  have hfold2 := foldl_noop idx fe entries
    ⟨(fetchBranches idx fe entries bs0 now1).branches, 0, 0, 0⟩ hnd1 hfix
  refine ⟨?_, ?_, ?_, rfl⟩
  · rw [fetchBranches_branches, hfold2.1]
    exact map_id_of _ _
      (fun b hb => flip_id_of_guard_false (seenNames fe entries) b (hguard b hb))
  · rw [fetchBranches_created, hfold2.2]
  · rw [fetchBranches_inactivated, hfold2.1]
    exact List.countP_eq_zero.mpr
      (fun b hb => by rw [hguard b hb]; simp)

/-- **C3 (amended, witness).** The amended idempotence at a concrete
input: one remote branch `main`, empty local table, runs stamped 1 and
2. -/
theorem c3_amended_second_run_no_change_witness :
    (fetchBranches [] false [⟨some "main", some "s", false, true⟩]
        (fetchBranches [] false [⟨some "main", some "s", false, true⟩]
          [] 1).branches 2).branches =
      (fetchBranches [] false [⟨some "main", some "s", false, true⟩]
        [] 1).branches ∧
    (fetchBranches [] false [⟨some "main", some "s", false, true⟩]
        (fetchBranches [] false [⟨some "main", some "s", false, true⟩]
          [] 1).branches 2).created = 0 ∧
    (fetchBranches [] false [⟨some "main", some "s", false, true⟩]
        (fetchBranches [] false [⟨some "main", some "s", false, true⟩]
          [] 1).branches 2).inactivated = 0 ∧
    (fetchBranches [] false [⟨some "main", some "s", false, true⟩]
        (fetchBranches [] false [⟨some "main", some "s", false, true⟩]
          [] 1).branches 2).last_branches_synced_at = some 2 :=
  c3_amended_second_run_no_change [] false
    [⟨some "main", some "s", false, true⟩] [] 1 2 (by simp) (by decide)

end SmartCommit
